import Mathlib
/-!
Verification development for the wiki external-links scanner
(`src/wiki_search.py`).

The Python source is shallowly embedded below.  Network interaction is
modelled by *scripted upstream responses*: a pagination loop consumes a
`List (NetResult β)`, one element per HTTP request it makes, where each
element is either a transport exception (`.exn`, a `requests` exception)
or a response with an HTTP status code and an already-JSON-decoded body.
JSON bodies are embedded as structures whose `Option` fields record
which keys are present (`none` = key absent).  An empty script models a
server that cleanly ends the conversation (the loop simply stops); no
claim depends on that corner.

Python dictionary accesses are translated as follows:
  * `d.get(k, v)`   becomes `o.getD v` on the `Option` field;
  * `d[k]`          becomes a `match` whose `none` branch is a raised
                    `KeyError`, i.e. `Except.error ()`;
  * `x or ""`       becomes `o.getD ""` (for string/None-valued `x`).
Generators are embedded as the finite list of values they yield; a
generator that raises mid-iteration is embedded as the list of values
yielded before the raise, terminated by a single `.error` element.
-/

/-! ## Python `in` (exact substring test) on strings, as character lists -/
/-- `leadsList n h` tests whether `n` is an initial segment of `h`
(used to embed Python's substring operator). -/
def leadsList : List Char → List Char → Bool
  | [], _ => true
  | _ :: _, [] => false
  | a :: as, b :: bs => (a = b) && leadsList as bs

/-- `memSub n h` embeds Python's `n in h` exact-substring test. -/
def memSub (needle : List Char) : List Char → Bool
  | [] => leadsList needle []
  | h :: t => leadsList needle (h :: t) || memSub needle t

/-! ## Scripted network layer -/
/-- One upstream interaction: either a transport exception raised by
`session.get` (or anything else inside the `try`), or a response with a
status code and decoded JSON body. -/
inductive NetResult (β : Type) : Type
  | exn : NetResult β
  | resp (status : Nat) (body : β) : NetResult β
deriving DecidableEq

/-! ## Data model: `fetch_exturlusage` (src/wiki_search.py lines 75-118) -/
/-- One element of `data["query"]["exturlusage"]`; `url` / `title` keys
are read with `item.get(k, "")`, hence `Option`. -/
structure ExtItem where
  url : Option String
  title : Option String
deriving DecidableEq

/-- Body of one exturlusage response.  `exturlusage = none` models
`"query" not in data or "exturlusage" not in data["query"]`;
`euecontinue = none` models the absence of `data["continue"]["euecontinue"]`. -/
structure ExtBody where
  exturlusage : Option (List ExtItem)
  euecontinue : Option String
deriving DecidableEq

/-- A link-usage record as yielded by `fetch_exturlusage`. -/
structure UsageRecord where
  lang : String
  domain : String
  url : String
  page_title : String
  wiki_link : String
deriving DecidableEq

/-- `page_title.replace(' ', '_')`. -/
def underscoreTitle (t : String) : String :=
  String.mk (t.toList.map fun c => if c = ' ' then '_' else c)

/-- Builds the dict yielded per exturlusage item (lines 101-111). -/
def mkUsageRecord (lang domain : String) (item : ExtItem) : UsageRecord :=
  { lang := lang
    domain := domain
    url := item.url.getD ""
    page_title := item.title.getD ""
    wiki_link :=
      "https://" ++ lang ++ ".wikipedia.org/wiki/" ++ underscoreTitle (item.title.getD "") }

/-- The `fetch_exturlusage` generator (lines 75-118) run against a
scripted response sequence.  A transport exception or a non-200 status
breaks the loop; a body without the query wrapper breaks the loop; the
loop continues only when `data["continue"]["euecontinue"]` is present. -/
def fetch_exturlusage (lang domain : String) : List (NetResult ExtBody) → List UsageRecord
  | [] => []
  | .exn :: _ => []
  | .resp status body :: rest =>
    if status = 200 then
      match body.exturlusage with
      | none => []
      | some items =>
        match body.euecontinue with
        | none => items.map (mkUsageRecord lang domain)
        | some _ => items.map (mkUsageRecord lang domain) ++ fetch_exturlusage lang domain rest
    else []

/-! ## Data model: `fetch_all_revisions` (src/wiki_search.py lines 120-163) -/
/-- The `rev["slots"]["main"]` sub-dict.  `star = none` models the `"*"`
key being absent (read with `.get("*", "")`); `star = some none` models
`"*"` holding JSON `null` (Python `None`). -/
structure RawSlots where
  star : Option (Option String)
deriving DecidableEq

/-- One raw revision dict in a response.  `timestamp` and the
`slots`/`main` structure are accessed with `rev[...]` (raising `KeyError`
when absent), `user` with `rev.get("user", "")`. -/
structure RawRev where
  timestamp : Option String
  user : Option String
  slots : Option RawSlots
deriving DecidableEq

/-- A parsed revision as yielded by the generator (lines 152-156).
`content = none` embeds Python `None` (a `"*"` key holding `null`). -/
structure Revision where
  timestamp : String
  user : String
  content : Option String
deriving DecidableEq

deriving instance DecidableEq for Except

/-- The dict built at lines 152-156: direct indexing on `timestamp` and
`slots`/`main` raises `KeyError` (embedded as `.error ()`), `user` and
`"*"` default to `""`. -/
def parseRev (r : RawRev) : Except Unit Revision :=
  match r.timestamp, r.slots with
  | some ts, some sl =>
    .ok { timestamp := ts, user := r.user.getD "", content := sl.star.getD (some "") }
  | _, _ => .error ()

/-- Body of one revisions response.  `pages = none` models
`data.get("query", {}).get("pages", {})` finding nothing; each inner list
is one page's `page_data.get("revisions", [])`. -/
structure RevBody where
  pages : Option (List (List RawRev))
  rvcontinue : Option String
deriving DecidableEq

/-- Parses a page's revision dicts in order; a `KeyError` truncates the
yielded stream, ending it in a single `.error` element. -/
def parseRevs : List RawRev → List (Except Unit Revision)
  | [] => []
  | r :: rest =>
    match parseRev r with
    | .error e => [.error e]
    | .ok v => .ok v :: parseRevs rest

/-- Whether a yielded stream ends in a raised exception. -/
def streamHasError : List (Except Unit Revision) → Bool
  | [] => false
  | .error _ :: _ => true
  | .ok _ :: rest => streamHasError rest

/-- The `fetch_all_revisions` generator (lines 120-163) run against a
scripted response sequence.  Transport exceptions and non-200 statuses
break the loop; a missing query wrapper yields nothing for that response
but the continuation check still runs; a `KeyError` while building a
revision dict propagates to the consumer (final `.error` element). -/
def fetch_all_revisions : List (NetResult RevBody) → List (Except Unit Revision)
  | [] => []
  | .exn :: _ => []
  | .resp status body :: rest =>
    if status = 200 then
      let items := parseRevs (body.pages.getD []).flatten
      if streamHasError items then items
      else
        match body.rvcontinue with
        | none => items
        | some _ => items ++ fetch_all_revisions rest
    else []

/-! ## Introduction detection (src/wiki_search.py lines 172-183) -/
/-- `url in (rev["content"] or "")`. -/
def linkPresent (url : String) (rev : Revision) : Bool :=
  memSub url.toList (rev.content.getD "").toList

/-- The loop body of `find_introduction_user`, tracking `prev_present`.
Consuming a stream element that is a raised exception re-raises it. -/
def introLoop (url : String) : Bool → List (Except Unit Revision) → Except Unit (Option String × Option String)
  | _, [] => .ok (none, none)
  | _, .error e :: _ => .error e
  | prev, .ok rev :: rest =>
    if linkPresent url rev && !prev then .ok (some rev.user, some rev.timestamp)
    else introLoop url (linkPresent url rev) rest

/-- `find_introduction_user(url, lang, page_title)` (lines 172-183),
applied to the revision stream produced by `fetch_all_revisions`. -/
def find_introduction_user (url : String) (stream : List (Except Unit Revision)) : Except Unit (Option String × Option String) :=
  introLoop url false stream

/-! ## Specification-side definition of introduction detection.

`specFirstIntroIdx` follows the spec's words, not the code: the result is
the *first index* `i` at which presence is `true` while the prior state
— `false` before the history for `i = 0`, else the presence at `i - 1` —
is `false`. -/
/-- The presence state immediately before index `i`: the initial state
`prior` for the first revision, otherwise the presence at `i - 1`. -/
def priorAt (prior : Bool) (ps : List Bool) : Nat → Bool
  | 0 => prior
  | i + 1 => ps.getD i false

/-- First index where presence transitions from a prior state of `false`
to `true` (spec-side definition; `prior` is the state before index 0). -/
def specFirstIntroIdx (prior : Bool) (ps : List Bool) : Option Nat :=
  (List.range ps.length).find? fun i => ps.getD i false && !(priorAt prior ps i)

/-- Presence booleans of a revision sequence for a target url. -/
def presenceList (url : String) (revs : List Revision) : List Bool :=
  revs.map (linkPresent url)

/-- Spec-side introduction result: editor and timestamp of the revision
at the first false-to-true transition (initial state `false`), or
`(none, none)` when no transition exists. -/
def introductionSpec (url : String) (revs : List Revision) : Option String × Option String :=
  match specFirstIntroIdx false (presenceList url revs) with
  | none => (none, none)
  | some i =>
    match revs[i]? with
    | none => (none, none)
    | some rev => (some rev.user, some rev.timestamp)

/-- The three-revision scenario page from the spec. -/
def exampleRevs : List Revision :=
  [ { timestamp := "2005-01-01T08:00:00Z", user := "Carol", content := some "no link here" }
  , { timestamp := "2005-02-02T12:00:00Z", user := "Alice", content := some "see http://target.com now" }
  , { timestamp := "2005-03-03T09:30:00Z", user := "Bob", content := some "still http://target.com here" } ]

/-! ## Concurrency model of `find_introduction_user_cached` (lines 165-170).

`functools.lru_cache` takes its internal lock only around the cache
lookup and around storing the computed value; the wrapped function runs
with the lock released (CPython `functools`: on a store that finds the
key already cached, the existing entry is kept and the thread returns
the value it computed itself).  The model below embeds this for two
callers of the same `(lang, page_title, url)` key, with the underlying
scan deterministic with value `scan`: each thread atomically looks the
key up — finishing with the cached value on a hit, running the scan
(bumping the scan counter) on a miss — and then atomically stores and
finishes with its own result. -/
abbrev IntroResult := Option String × Option String

inductive LruPC : Type
  | start : LruPC
  | computing (r : IntroResult) : LruPC
  | done (r : IntroResult) : LruPC
deriving DecidableEq

structure LruState where
  cached : Option IntroResult
  scans : Nat
  t1 : LruPC
  t2 : LruPC
deriving DecidableEq

def lruInit : LruState := { cached := none, scans := 0, t1 := .start, t2 := .start }

/-- One atomic action of a thread: lookup (hit finishes, miss scans),
or store-and-finish.  Returns (new pc, new cache, new scan count). -/
def lruThread (scan : IntroResult) (pc : LruPC) (cached : Option IntroResult) (scans : Nat) :
    LruPC × Option IntroResult × Nat :=
  match pc, cached with
  | .start, some r => (.done r, some r, scans)
  | .start, none => (.computing scan, none, scans + 1)
  | .computing r, some r0 => (.done r, some r0, scans)
  | .computing r, none => (.done r, some r, scans)
  | .done r, c => (.done r, c, scans)

/-- Scheduler step: `who = true` runs thread 1, else thread 2. -/
def lruStep (scan : IntroResult) (s : LruState) (who : Bool) : LruState :=
  if who then
    let t := lruThread scan s.t1 s.cached s.scans
    { cached := t.2.1, scans := t.2.2, t1 := t.1, t2 := s.t2 }
  else
    let t := lruThread scan s.t2 s.cached s.scans
    { cached := t.2.1, scans := t.2.2, t1 := s.t1, t2 := t.1 }

/-- Run a finite interleaving from the initial (empty-cache) state. -/
def lruRun (scan : IntroResult) (sched : List Bool) : LruState :=
  sched.foldl (lruStep scan) lruInit

def lruProgress : LruPC → Nat
  | .start => 0
  | .computing _ => 1
  | .done _ => 1

/-- Inductive invariant of the interleaving: every cached or observed
value is the deterministic scan value, and the number of scans is
bounded by the number of threads that have left their start state. -/
def LruInv (scan : IntroResult) (s : LruState) : Prop :=
  (∀ r, s.cached = some r → r = scan) ∧
  (∀ r, s.t1 = .computing r → r = scan) ∧ (∀ r, s.t1 = .done r → r = scan) ∧
  (∀ r, s.t2 = .computing r → r = scan) ∧ (∀ r, s.t2 = .done r → r = scan) ∧
  s.scans ≤ lruProgress s.t1 + lruProgress s.t2

/-- The deterministic result of the scenario page's revision scan,
used as the concrete scan value in the cache interleaving model. -/
def exampleScan : IntroResult := (some "Alice", some "2005-02-02T12:00:00Z")

/-- A schedule in which both threads look up (and miss) before either
stores: thread 1, thread 2, thread 1, thread 2. -/
def raceSched : List Bool := [true, false, true, false]

/-! ## Scripted well-formed pagination sequences (for C4, C5, C6) -/
/-- A continuation page of the exturlusage query: status 200, items
present, continuation token present. -/
def extPage (pg : List ExtItem × String) : NetResult ExtBody :=
  .resp 200 { exturlusage := some pg.1, euecontinue := some pg.2 }

/-- The continuation-page portion of an exturlusage script. -/
def extScriptFront (front : List (List ExtItem × String)) : List (NetResult ExtBody) :=
  front.map extPage

/-- The final exturlusage page: items present, no continuation token. -/
def extLastPage (items : List ExtItem) : NetResult ExtBody :=
  .resp 200 { exturlusage := some items, euecontinue := none }

/-- A parsed `Revision` turned back into the raw response dict that
parses to it (timestamp and user present, `"*"` present, holding `null`
exactly when the revision content is `None`). -/
def rawOfRev (v : Revision) : RawRev :=
  { timestamp := some v.timestamp, user := some v.user, slots := some { star := some v.content } }

/-- A continuation page of the revisions query: one wiki page whose
revision dicts all parse, continuation token present. -/
def revPage (pg : List Revision × String) : NetResult RevBody :=
  .resp 200 { pages := some [pg.1.map rawOfRev], rvcontinue := some pg.2 }

/-- The continuation-page portion of a revisions script. -/
def revScriptFront (front : List (List Revision × String)) : List (NetResult RevBody) :=
  front.map revPage

/-- The final revisions page: revisions present, no continuation token. -/
def revLastPage (revs : List Revision) : NetResult RevBody :=
  .resp 200 { pages := some [revs.map rawOfRev], rvcontinue := none }

/-! ## Data model: `fetch_user_contributions` (src/wiki_search.py lines 249-282).

The records in `data["query"]["usercontribs"]` are opaque payloads to
this function (it only accumulates and slices them), embedded as plain
strings. -/
abbrev UcRecord := String

/-- Body of one usercontribs response.  `usercontribs = none` models
`data.get("query", {}).get("usercontribs", [])` finding nothing. -/
structure UcBody where
  usercontribs : Option (List UcRecord)
  uccontinue : Option String
deriving DecidableEq

/-- The `while` loop of `fetch_user_contributions`, carrying the
`contributions` accumulator.  A non-200 status breaks the loop (the
collected records, truncated to `limit`, are returned); the loop also
breaks — after extending the accumulator — when the continuation token
is absent or when `len(contributions) >= limit`; a transport exception
is caught by the surrounding `try` whose handler returns `[]`. -/
def fetch_user_contributions_go (limit : Nat) (acc : List UcRecord) :
    List (NetResult UcBody) → List UcRecord
  | [] => acc.take limit
  | .exn :: _ => []
  | .resp status body :: rest =>
    if status = 200 then
      let acc2 := acc ++ body.usercontribs.getD []
      match body.uccontinue with
      | some _ =>
        if limit ≤ acc2.length then acc2.take limit
        else fetch_user_contributions_go limit acc2 rest
      | none => acc2.take limit
    else acc.take limit

/-- `fetch_user_contributions(lang, user, limit)` (lines 249-282) run
against a scripted response sequence. -/
def fetch_user_contributions (limit : Nat) (script : List (NetResult UcBody)) : List UcRecord :=
  fetch_user_contributions_go limit [] script

/-- A continuation page of the usercontribs query: status 200, records
present, continuation token present. -/
def ucPage (pg : List UcRecord × String) : NetResult UcBody :=
  .resp 200 { usercontribs := some pg.1, uccontinue := some pg.2 }

/-- A script of continuation pages. -/
def mkUcScript (pages : List (List UcRecord × String)) : List (NetResult UcBody) :=
  pages.map ucPage

/-- The records of a page list, in server-returned order. -/
def ucItems (pages : List (List UcRecord × String)) : List UcRecord :=
  (pages.map Prod.fst).flatten

/-! ## Fault handling of the pagination streams (C6) -/
/-- A faulty upstream interaction: transport exception or non-200 status. -/
def isFault {β : Type} : NetResult β → Bool
  | .exn => true
  | .resp st _ => decide (st ≠ 200)

/-- The contributions script used in the C6 counterexample: one
successful page yielding one record, then a transport exception. -/
def ucFaultScriptEx : List (NetResult UcBody) :=
  [NetResult.resp 200 { usercontribs := some ["c1"], uccontinue := some "tok" }, NetResult.exn]

/-- A raw revision dict whose `timestamp` key is missing. -/
def badTimestampRev : RawRev :=
  { timestamp := none, user := some "u", slots := some { star := some (some "c") } }

/-! ## The crawler loop `process_lang_domain_pair` (lines 185-203) -/
/-- An output row of the main results sink: the usage record enriched
in place with introducer and timestamp (lines 190-195). -/
structure OutRecord where
  lang : String
  domain : String
  url : String
  page_title : String
  wiki_link : String
  user : String
  timestamp : String
deriving DecidableEq

/-- Lines 190-192: `user, ts = find_introduction_user_cached(lang,
title, url)` — here abstracted as the `lookup` function on (title, url)
— then `record['user'] = user if user else ''` and likewise for the
timestamp (Python truthiness maps both `None` and `""` to `""`). -/
def enrichRecord (lookup : String → String → Option String × Option String)
    (rec : UsageRecord) : OutRecord :=
  { lang := rec.lang, domain := rec.domain, url := rec.url, page_title := rec.page_title,
    wiki_link := rec.wiki_link,
    user := (lookup rec.page_title rec.url).1.getD "",
    timestamp := (lookup rec.page_title rec.url).2.getD "" }

/-- The crawler loop (lines 188-201): every record is written to the
result sink, and the `(lang, user)` pair is appended to the pair stream
only under the `if record['user']:` guard. -/
def process_lang_domain_pair (lang : String)
    (lookup : String → String → Option String × Option String) :
    List UsageRecord → List OutRecord × List (String × String)
  | [] => ([], [])
  | rec :: rest =>
    (enrichRecord lookup rec :: (process_lang_domain_pair lang lookup rest).1,
     if (enrichRecord lookup rec).user = ""
     then (process_lang_domain_pair lang lookup rest).2
     else (lang, (enrichRecord lookup rec).user) :: (process_lang_domain_pair lang lookup rest).2)

/-- A concrete introduction lookup used by the C8 witness. -/
def lookupEx : String → String → Option String × Option String :=
  fun _ _ => (some "Alice", some "2005-02-02T12:00:00Z")

/-- A concrete usage record used by the C8 witness. -/
def usageRecEx : UsageRecord :=
  { lang := "en", domain := "target.com", url := "http://target.com/x",
    page_title := "Example", wiki_link := "https://en.wikipedia.org/wiki/Example" }

/-! ## The (site, editor) pair stream and its sort|uniq dedup (C3, C10).

Phase 1 writes one `f"{lang},{record['user']}\n"` line per added pair
(line 199); `main` then runs `sort tmp | uniq > unique` (line 356) and
reads the unique file back in text mode, stripping each line, skipping
empty lines and splitting at the first comma (lines 361-367).  Files
are modelled as their character lists on a POSIX host (`os.linesep` is
`"\n"`, so text-mode writes are untranslated); `sort`/`uniq` split
their input at `'\n'` bytes only, and their line comparison is modelled
as byte-order lexicographic comparison (any total line order makes
`uniq` an exact dedup, since equal lines sort adjacently).  The Python
reader, in contrast, iterates the unique file with universal newlines:
`'\n'`, `'\r'` and `"\r\n"` all terminate a line there. -/
/-- The whitespace class stripped by Python's `str.strip()`: CPython's
`Py_UNICODE_ISSPACE` table — `\t\n\v\f\r` (U+0009–U+000D), U+001C–U+001F,
space, U+0085 (NEL), U+00A0 (NBSP), U+1680, U+2000–U+200A, U+2028,
U+2029, U+202F, U+205F and U+3000. -/
def isPySpace (c : Char) : Bool :=
  (9 ≤ c.toNat && c.toNat ≤ 13) || (28 ≤ c.toNat && c.toNat ≤ 31) || c.toNat = 32 ||
    c.toNat = 133 || c.toNat = 160 || c.toNat = 5760 ||
    (8192 ≤ c.toNat && c.toNat ≤ 8202) || c.toNat = 8232 || c.toNat = 8233 ||
    c.toNat = 8239 || c.toNat = 8287 || c.toNat = 12288

/-- `line.strip()`: drop leading and trailing whitespace. -/
def pyStrip (cs : List Char) : List Char :=
  ((cs.dropWhile isPySpace).reverse.dropWhile isPySpace).reverse

/-- The line written per pair at line 199 (`f"{lang},{record['user']}"`,
newline terminator added by `writerFile`). -/
def pairLine (p : String × String) : List Char :=
  p.1.toList ++ ',' :: p.2.toList

/-- The tmp pair file produced by the Phase-1 writers: one terminated
line per `add`. -/
def writerFile (pairs : List (String × String)) : List Char :=
  (pairs.map fun p => pairLine p ++ ['\n']).flatten

/-- Splits file content at newline characters (keeping the final
fragment after the last newline). -/
def splitNl : List Char → List (List Char)
  | [] => [[]]
  | c :: rest =>
    if c = '\n' then [] :: splitNl rest
    else
      match splitNl rest with
      | [] => [[c]]
      | l :: ls => (c :: l) :: ls

/-- The lines of a file as `sort`/`uniq` see them: newline-separated
segments, without the empty fragment after a terminating newline. -/
def hostLines (cs : List Char) : List (List Char) :=
  if (splitNl cs).getLast? = some [] then (splitNl cs).dropLast else splitNl cs

/-- Byte-order lexicographic line comparison modelling `sort`. -/
def lexLe : List Char → List Char → Bool
  | [], _ => true
  | _ :: _, [] => false
  | a :: as, b :: bs => if a = b then lexLe as bs else decide (a < b)

/-- `lexLe` as a relation, for `List.insertionSort`. -/
def lexLeP (a b : List Char) : Prop := lexLe a b = true

instance : DecidableRel lexLeP :=
  fun a b => inferInstanceAs (Decidable (lexLe a b = true))

/-- `uniq` after the head of a run: keep each line differing from its
predecessor. -/
def uniqAdjTail {α : Type} [DecidableEq α] (prev : α) : List α → List α
  | [] => []
  | b :: rest => if prev = b then uniqAdjTail b rest else b :: uniqAdjTail b rest

/-- `uniq`: collapse runs of equal adjacent lines to their first line. -/
def uniqAdj {α : Type} [DecidableEq α] : List α → List α
  | [] => []
  | a :: rest => a :: uniqAdjTail a rest

/-- `sort FILE | uniq` on a list of lines. -/
def sortUniq (lines : List (List Char)) : List (List Char) :=
  uniqAdj (List.insertionSort lexLeP lines)

/-- The content of the unique-pairs file produced by `uniq`: each output
line with its terminating newline. -/
def joinLines (ls : List (List Char)) : List Char :=
  (ls.map fun l => l ++ ['\n']).flatten

/-- The universal-newlines translation performed by Python's text-mode
reading: `"\r\n"` and a lone `'\r'` are both read as `'\n'`.  The
Boolean flag records whether the previous character was a
not-yet-emitted `'\r'`. -/
def univNlGo : Bool → List Char → List Char
  | prevCR, [] => if prevCR then ['\n'] else []
  | prevCR, c :: rest =>
    if c = '\r' then
      if prevCR then '\n' :: univNlGo true rest else univNlGo true rest
    else if c = '\n' then '\n' :: univNlGo false rest
    else if prevCR then '\n' :: c :: univNlGo false rest
    else c :: univNlGo false rest

/-- A text-mode file's content as Python sees it. -/
def univNl (cs : List Char) : List Char := univNlGo false cs

/-- The lines Python's `for line in f` yields for a text-mode file:
newline-split fragments of the universal-newlines translation, without
the empty fragment after a terminating newline. -/
def readerLines (cs : List Char) : List (List Char) := hostLines (univNl cs)

/-- Splits a stripped line at its first comma (`line.split(',', 1)`);
`none` when the line has no comma (whereupon the two-target unpacking
at line 366 raises `ValueError`). -/
def splitComma : List Char → Option (List Char × List Char)
  | [] => none
  | c :: rest =>
    if c = ',' then some ([], rest)
    else (splitComma rest).map fun p => (c :: p.1, p.2)

inductive LineParse : Type
  | skip : LineParse
  | ok (p : String × String) : LineParse
  | fail : LineParse
deriving DecidableEq

/-- One iteration of the reader loop (lines 362-367): strip, skip empty
lines, split at the first comma. -/
def parsePairLine (cs : List Char) : LineParse :=
  if pyStrip cs = [] then .skip
  else
    match splitComma (pyStrip cs) with
    | some ab => .ok (String.mk ab.1, String.mk ab.2)
    | none => .fail

/-- The reader loop over the unique-pairs file's lines (an uncaught
`ValueError` is `.error ()`). -/
def collectPairs : List (List Char) → Except Unit (List (String × String))
  | [] => .ok []
  | l :: rest =>
    match parsePairLine l with
    | .fail => .error ()
    | .skip => collectPairs rest
    | .ok p => (collectPairs rest).map fun ps => p :: ps

/-- The Deduplicator's finalization (lines 354-368): `sort tmp | uniq`
over the written pair file (byte-level `'\n'` lines), then the Python
reader loop over the unique file's text-mode (universal-newlines)
lines. -/
def dedupFinalize (pairs : List (String × String)) : Except Unit (List (String × String)) :=
  collectPairs (readerLines (joinLines (sortUniq (hostLines (writerFile pairs)))))

/-- Whether a line fragment does not begin with strippable whitespace. -/
def headNotSpace : List Char → Bool
  | [] => true
  | c :: _ => !isPySpace c

/-- Side condition on a site string under which its serialized pair
survives the file round trip: no comma, no newline, no carriage return,
and no leading strippable whitespace. -/
def siteOk (s : String) : Bool :=
  decide (',' ∉ s.toList ∧ '\n' ∉ s.toList ∧ '\r' ∉ s.toList) && headNotSpace s.toList

/-- Side condition on an editor string: no newline, no carriage return,
and no trailing strippable whitespace (commas are fine — only the first
comma splits). -/
def editorOk (e : String) : Bool :=
  decide ('\n' ∉ e.toList ∧ '\r' ∉ e.toList) && headNotSpace e.toList.reverse

/-! ### Helper lemmas for the introduction-detection proof -/
theorem find?_map_comm {α β : Type} (f : α → β) (p : β → Bool) (l : List α) :
    (l.map f).find? p = (l.find? fun a => p (f a)).map f := by
  induction l with
  | nil => rfl
  | cons a t ih =>
    simp only [List.map_cons, List.find?_cons]
    cases h : p (f a) <;> simp [h, ih]

theorem find?_congr_local {α : Type} (p q : α → Bool) (l : List α)
    (h : ∀ a ∈ l, p a = q a) : l.find? p = l.find? q := by
  induction l with
  | nil => rfl
  | cons a t ih =>
    simp only [List.find?_cons]
    rw [h a (List.mem_cons_self a t)]
    cases q a
    · exact ih fun x hx => h x (List.mem_cons_of_mem a hx)
    · rfl

theorem specFirstIntroIdx_cons (prior b : Bool) (ps : List Bool) :
    specFirstIntroIdx prior (b :: ps) =
      if b && !prior then some 0 else (specFirstIntroIdx b ps).map (· + 1) := by
  unfold specFirstIntroIdx
  simp only [List.length_cons, List.range_succ_eq_map, List.find?_cons]
  have hpred : ∀ i ∈ List.range ps.length,
      ((b :: ps).getD (Nat.succ i) false && !(priorAt prior (b :: ps) (Nat.succ i)))
        = (ps.getD i false && !(priorAt b ps i)) := by
    intro i _
    cases i with
    | zero => simp [priorAt, List.getD_cons_succ, List.getD_cons_zero]
    | succ j => simp [priorAt, List.getD_cons_succ]
  cases hsc : ((b :: ps).getD 0 false && !(priorAt prior (b :: ps) 0)) with
  | true =>
    have hb2 : (b && !prior) = true := by
      simpa [priorAt, List.getD_cons_zero] using hsc
    simp [hb2]
  | false =>
    have hb2 : (b && !prior) = false := by
      simpa [priorAt, List.getD_cons_zero] using hsc
    simp only [hb2, Bool.false_eq_true, if_false]
    rw [find?_map_comm, find?_congr_local _ _ _ hpred]

theorem introLoop_spec (url : String) (revs : List Revision) (prior : Bool) :
    introLoop url prior (revs.map Except.ok) =
      .ok (match specFirstIntroIdx prior (presenceList url revs) with
           | none => (none, none)
           | some i =>
             match revs[i]? with
             | none => (none, none)
             | some rev => (some rev.user, some rev.timestamp)) := by
  induction revs generalizing prior with
  | nil => rfl
  | cons r rest ih =>
    rw [show presenceList url (r :: rest) = linkPresent url r :: presenceList url rest from rfl]
    rw [specFirstIntroIdx_cons, List.map_cons]
    show (if linkPresent url r && !prior then Except.ok (some r.user, some r.timestamp)
          else introLoop url (linkPresent url r) (rest.map Except.ok)) = _
    cases hb : linkPresent url r && !prior with
    | true => simp [hb]
    | false =>
      simp only [hb, Bool.false_eq_true, if_false]
      rw [ih (linkPresent url r)]
      cases hidx : specFirstIntroIdx (linkPresent url r) (presenceList url rest) with
      | none => simp
      | some i => simp [List.getElem?_cons_succ]

/-- C1: for every finite chronological revision sequence,
`find_introduction_user` returns the editor and timestamp of the first
revision where the exact-substring presence of the url transitions from
false (initially false) to true; the very first revision counts when the
url is present there; and when the url never appears, or the sequence is
empty, the result is `(none, none)` — all captured by equality with the
spec-side `introductionSpec`, plus the spec's Alice/Bob scenario and the
empty-history case. -/
theorem claim_C1 :
    (∀ (url : String) (revs : List Revision),
        find_introduction_user url (revs.map Except.ok) = .ok (introductionSpec url revs)) ∧
    find_introduction_user "target.com" (exampleRevs.map Except.ok) =
      .ok (some "Alice", some "2005-02-02T12:00:00Z") ∧
    find_introduction_user "target.com" ([] : List (Except Unit Revision)) = .ok (none, none) := by
  refine ⟨fun url revs => introLoop_spec url revs false, ?_, rfl⟩
  rfl

theorem lruStep_inv (scan : IntroResult) (s : LruState) (who : Bool)
    (h : LruInv scan s) : LruInv scan (lruStep scan s who) := by
  obtain ⟨hc, h1c, h1d, h2c, h2d, hle⟩ := h
  cases who with
  | true =>
    cases hpc : s.t1 with
    | start =>
      cases hcc : s.cached with
      | none =>
        refine ⟨fun r hr => by simp [lruStep, lruThread, hpc, hcc] at hr,
                fun r hr => ?_, fun r hr => by simp [lruStep, lruThread, hpc, hcc] at hr,
                fun r hr => h2c r (by simpa [lruStep, lruThread, hpc, hcc] using hr),
                fun r hr => h2d r (by simpa [lruStep, lruThread, hpc, hcc] using hr), ?_⟩
        · simp [lruStep, lruThread, hpc, hcc] at hr
          exact hr.symm
        · simp [lruStep, lruThread, lruProgress, hpc, hcc] at hle ⊢
          omega
      | some r0 =>
        have hr0 : r0 = scan := hc r0 hcc
        refine ⟨fun r hr => hc r (by simpa [lruStep, lruThread, hpc, hcc] using hr),
                fun r hr => by simp [lruStep, lruThread, hpc, hcc] at hr,
                fun r hr => ?_,
                fun r hr => h2c r (by simpa [lruStep, lruThread, hpc, hcc] using hr),
                fun r hr => h2d r (by simpa [lruStep, lruThread, hpc, hcc] using hr), ?_⟩
        · simp [lruStep, lruThread, hpc, hcc] at hr
          exact hr ▸ hr0
        · simp [lruStep, lruThread, lruProgress, hpc, hcc] at hle ⊢
          omega
    | computing rc =>
      have hrc : rc = scan := h1c rc hpc
      cases hcc : s.cached with
      | none =>
        refine ⟨fun r hr => ?_, fun r hr => by simp [lruStep, lruThread, hpc, hcc] at hr,
                fun r hr => ?_,
                fun r hr => h2c r (by simpa [lruStep, lruThread, hpc, hcc] using hr),
                fun r hr => h2d r (by simpa [lruStep, lruThread, hpc, hcc] using hr), ?_⟩
        · simp [lruStep, lruThread, hpc, hcc] at hr
          exact hr ▸ hrc
        · simp [lruStep, lruThread, hpc, hcc] at hr
          exact hr ▸ hrc
        · simp [lruStep, lruThread, lruProgress, hpc, hcc] at hle ⊢
          omega
      | some r0 =>
        refine ⟨fun r hr => hc r (by simpa [lruStep, lruThread, hpc, hcc] using hr),
                fun r hr => by simp [lruStep, lruThread, hpc, hcc] at hr,
                fun r hr => ?_,
                fun r hr => h2c r (by simpa [lruStep, lruThread, hpc, hcc] using hr),
                fun r hr => h2d r (by simpa [lruStep, lruThread, hpc, hcc] using hr), ?_⟩
        · simp [lruStep, lruThread, hpc, hcc] at hr
          exact hr ▸ hrc
        · simp [lruStep, lruThread, lruProgress, hpc, hcc] at hle ⊢
          omega
    | done rd =>
      have hrd : rd = scan := h1d rd hpc
      refine ⟨fun r hr => hc r (by simpa [lruStep, lruThread, hpc] using hr),
              fun r hr => by simp [lruStep, lruThread, hpc] at hr,
              fun r hr => ?_,
              fun r hr => h2c r (by simpa [lruStep, lruThread, hpc] using hr),
              fun r hr => h2d r (by simpa [lruStep, lruThread, hpc] using hr), ?_⟩
      · simp [lruStep, lruThread, hpc] at hr
        exact hr ▸ hrd
      · simp [lruStep, lruThread, lruProgress, hpc] at hle ⊢
        omega
  | false =>
    cases hpc : s.t2 with
    | start =>
      cases hcc : s.cached with
      | none =>
        refine ⟨fun r hr => by simp [lruStep, lruThread, hpc, hcc] at hr,
                fun r hr => h1c r (by simpa [lruStep, lruThread, hpc, hcc] using hr),
                fun r hr => h1d r (by simpa [lruStep, lruThread, hpc, hcc] using hr),
                fun r hr => ?_, fun r hr => by simp [lruStep, lruThread, hpc, hcc] at hr, ?_⟩
        · simp [lruStep, lruThread, hpc, hcc] at hr
          exact hr.symm
        · simp [lruStep, lruThread, lruProgress, hpc, hcc] at hle ⊢
          omega
      | some r0 =>
        have hr0 : r0 = scan := hc r0 hcc
        refine ⟨fun r hr => hc r (by simpa [lruStep, lruThread, hpc, hcc] using hr),
                fun r hr => h1c r (by simpa [lruStep, lruThread, hpc, hcc] using hr),
                fun r hr => h1d r (by simpa [lruStep, lruThread, hpc, hcc] using hr),
                fun r hr => by simp [lruStep, lruThread, hpc, hcc] at hr,
                fun r hr => ?_, ?_⟩
        · simp [lruStep, lruThread, hpc, hcc] at hr
          exact hr ▸ hr0
        · simp [lruStep, lruThread, lruProgress, hpc, hcc] at hle ⊢
          omega
    | computing rc =>
      have hrc : rc = scan := h2c rc hpc
      cases hcc : s.cached with
      | none =>
        refine ⟨fun r hr => ?_,
                fun r hr => h1c r (by simpa [lruStep, lruThread, hpc, hcc] using hr),
                fun r hr => h1d r (by simpa [lruStep, lruThread, hpc, hcc] using hr),
                fun r hr => by simp [lruStep, lruThread, hpc, hcc] at hr,
                fun r hr => ?_, ?_⟩
        · simp [lruStep, lruThread, hpc, hcc] at hr
          exact hr ▸ hrc
        · simp [lruStep, lruThread, hpc, hcc] at hr
          exact hr ▸ hrc
        · simp [lruStep, lruThread, lruProgress, hpc, hcc] at hle ⊢
          omega
      | some r0 =>
        refine ⟨fun r hr => hc r (by simpa [lruStep, lruThread, hpc, hcc] using hr),
                fun r hr => h1c r (by simpa [lruStep, lruThread, hpc, hcc] using hr),
                fun r hr => h1d r (by simpa [lruStep, lruThread, hpc, hcc] using hr),
                fun r hr => by simp [lruStep, lruThread, hpc, hcc] at hr,
                fun r hr => ?_, ?_⟩
        · simp [lruStep, lruThread, hpc, hcc] at hr
          exact hr ▸ hrc
        · simp [lruStep, lruThread, lruProgress, hpc, hcc] at hle ⊢
          omega
    | done rd =>
      have hrd : rd = scan := h2d rd hpc
      refine ⟨fun r hr => hc r (by simpa [lruStep, lruThread, hpc] using hr),
              fun r hr => h1c r (by simpa [lruStep, lruThread, hpc] using hr),
              fun r hr => h1d r (by simpa [lruStep, lruThread, hpc] using hr),
              fun r hr => by simp [lruStep, lruThread, hpc] at hr,
              fun r hr => ?_, ?_⟩
      · simp [lruStep, lruThread, hpc] at hr
        exact hr ▸ hrd
      · simp [lruStep, lruThread, lruProgress, hpc] at hle ⊢
        omega

theorem lruRun_inv_aux (scan : IntroResult) (sched : List Bool) :
    ∀ s : LruState, LruInv scan s → LruInv scan (sched.foldl (lruStep scan) s) := by
  induction sched with
  | nil => intro s h; exact h
  | cons who rest ih =>
    intro s h
    exact ih (lruStep scan s who) (lruStep_inv scan s who h)

theorem lruRun_inv (scan : IntroResult) (sched : List Bool) : LruInv scan (lruRun scan sched) := by
  refine lruRun_inv_aux scan sched lruInit ?_
  refine ⟨fun r hr => by simp [lruInit] at hr, fun r hr => by simp [lruInit] at hr,
          fun r hr => by simp [lruInit] at hr, fun r hr => by simp [lruInit] at hr,
          fun r hr => by simp [lruInit] at hr, by simp [lruInit, lruProgress]⟩

/-- C2 counterexample: under the `functools.lru_cache` model there is a
concrete interleaving of two concurrent callers of the same key in which
both callers complete, yet the underlying revision scan runs twice — not
exactly once — so the claimed single-flight guarantee is false. -/
theorem claim_C2_counterexample :
    (lruRun exampleScan raceSched).t1 = .done exampleScan ∧
    (lruRun exampleScan raceSched).t2 = .done exampleScan ∧
    (lruRun exampleScan raceSched).scans = 2 ∧ (lruRun exampleScan raceSched).scans ≠ 1 := by
  exact ⟨rfl, rfl, rfl, by decide⟩

/-- C2 amended: concurrent callers of the cache for the same key may
each execute the underlying revision scan (`functools.lru_cache` does
not coalesce in-flight computations), but at most one scan per caller
runs, and — the scan being deterministic — every caller that completes
observes the same `IntroductionResult` value. -/
theorem claim_C2 (scan : IntroResult) (sched : List Bool) :
    (∀ r, (lruRun scan sched).t1 = .done r → r = scan) ∧
    (∀ r, (lruRun scan sched).t2 = .done r → r = scan) ∧
    (lruRun scan sched).scans ≤ 2 := by
  obtain ⟨hc, h1c, h1d, h2c, h2d, hle⟩ := lruRun_inv scan sched
  refine ⟨h1d, h2d, ?_⟩
  have h1 : lruProgress (lruRun scan sched).t1 ≤ 1 := by
    cases (lruRun scan sched).t1 <;> simp [lruProgress]
  have h2 : lruProgress (lruRun scan sched).t2 ≤ 1 := by
    cases (lruRun scan sched).t2 <;> simp [lruProgress]
  omega

/-- Witness for the C2 amended theorem at the racing schedule. -/
theorem claim_C2_witness :
    (∀ r, (lruRun exampleScan raceSched).t1 = .done r → r = exampleScan) ∧
    (∀ r, (lruRun exampleScan raceSched).t2 = .done r → r = exampleScan) ∧
    (lruRun exampleScan raceSched).scans ≤ 2 :=
  claim_C2 exampleScan raceSched

theorem fetch_exturlusage_front (lang domain : String) (front : List (List ExtItem × String)) :
    ∀ tail : List (NetResult ExtBody),
      fetch_exturlusage lang domain (extScriptFront front ++ tail) =
        ((front.map Prod.fst).flatten).map (mkUsageRecord lang domain) ++
          fetch_exturlusage lang domain tail := by
  induction front with
  | nil => intro tail; simp [extScriptFront]
  | cons pg rest ih =>
    intro tail
    simp only [extScriptFront, List.map_cons, List.cons_append, List.flatten_cons, List.map_append]
    show fetch_exturlusage lang domain (extPage pg :: (extScriptFront rest ++ tail)) = _
    rw [show fetch_exturlusage lang domain (extPage pg :: (extScriptFront rest ++ tail)) =
          pg.1.map (mkUsageRecord lang domain) ++
            fetch_exturlusage lang domain (extScriptFront rest ++ tail) from rfl]
    rw [ih tail, List.append_assoc]

theorem parseRev_rawOfRev (v : Revision) : parseRev (rawOfRev v) = .ok v := rfl

theorem parseRevs_map_rawOfRev (l : List Revision) :
    parseRevs (l.map rawOfRev) = l.map Except.ok := by
  induction l with
  | nil => rfl
  | cons v rest ih => simp only [List.map_cons, parseRevs, parseRev_rawOfRev, ih]

theorem streamHasError_map_ok (l : List Revision) :
    streamHasError (l.map Except.ok) = false := by
  induction l with
  | nil => rfl
  | cons v rest ih => simpa [streamHasError] using ih

theorem fetch_all_revisions_page (pg : List Revision × String) (tail : List (NetResult RevBody)) :
    fetch_all_revisions (revPage pg :: tail) =
      pg.1.map Except.ok ++ fetch_all_revisions tail := by
  show (if (200 : Nat) = 200 then
          let items := parseRevs ((some [pg.1.map rawOfRev] : Option (List (List RawRev))).getD []).flatten
          if streamHasError items then items
          else
            match (some pg.2 : Option String) with
            | none => items
            | some _ => items ++ fetch_all_revisions tail
        else []) = _
  rw [if_pos rfl]
  have hitems : parseRevs ((some [pg.1.map rawOfRev] : Option (List (List RawRev))).getD []).flatten
      = pg.1.map Except.ok := by
    simp only [Option.getD_some, List.flatten, List.append_nil, parseRevs_map_rawOfRev]
  simp only [hitems, streamHasError_map_ok]
  rfl

theorem fetch_all_revisions_front (front : List (List Revision × String)) :
    ∀ tail : List (NetResult RevBody),
      fetch_all_revisions (revScriptFront front ++ tail) =
        ((front.map Prod.fst).flatten).map Except.ok ++ fetch_all_revisions tail := by
  induction front with
  | nil => intro tail; simp [revScriptFront]
  | cons pg rest ih =>
    intro tail
    simp only [revScriptFront, List.map_cons, List.cons_append, List.flatten_cons, List.map_append]
    rw [show (revPage pg :: (List.map revPage rest ++ tail)) =
          revPage pg :: (revScriptFront rest ++ tail) from rfl]
    rw [fetch_all_revisions_page, ih tail, List.append_assoc]

/-- C4: for every scripted response sequence of N continuation pages
followed by one page lacking the continuation token, the paginated
fetchers (`fetch_exturlusage` and `fetch_all_revisions`) yield exactly
the items of all N+1 pages in page order and then terminate — any
further scripted responses after the token-less page are never
requested. -/
theorem claim_C4 :
    (∀ (lang domain : String) (front : List (List ExtItem × String)) (fin : List ExtItem)
        (extra : List (NetResult ExtBody)),
        fetch_exturlusage lang domain (extScriptFront front ++ extLastPage fin :: extra) =
          (((front.map Prod.fst) ++ [fin]).flatten).map (mkUsageRecord lang domain)) ∧
    (∀ (front : List (List Revision × String)) (fin : List Revision)
        (extra : List (NetResult RevBody)),
        fetch_all_revisions (revScriptFront front ++ revLastPage fin :: extra) =
          (((front.map Prod.fst) ++ [fin]).flatten).map Except.ok) := by
  constructor
  · intro lang domain front fin extra
    rw [fetch_exturlusage_front]
    rw [show fetch_exturlusage lang domain (extLastPage fin :: extra) =
          fin.map (mkUsageRecord lang domain) from rfl]
    simp
  · intro front fin extra
    rw [fetch_all_revisions_front]
    have hlast : fetch_all_revisions (revLastPage fin :: extra) = fin.map Except.ok := by
      show (if (200 : Nat) = 200 then
              let items := parseRevs ((some [fin.map rawOfRev] : Option (List (List RawRev))).getD []).flatten
              if streamHasError items then items
              else
                match (none : Option String) with
                | none => items
                | some _ => items ++ fetch_all_revisions extra
            else []) = _
      rw [if_pos rfl]
      have hitems : parseRevs ((some [fin.map rawOfRev] : Option (List (List RawRev))).getD []).flatten
          = fin.map Except.ok := by
        simp only [Option.getD_some, List.flatten, List.append_nil, parseRevs_map_rawOfRev]
      simp only [hitems, streamHasError_map_ok]
      rfl
    rw [hlast]
    simp

theorem take_append_left {α : Type} (l₁ l₂ : List α) (n : Nat) (h : n ≤ l₁.length) :
    (l₁ ++ l₂).take n = l₁.take n :=
  List.take_append_of_le_length h

theorem take_of_le_length {α : Type} (l : List α) (n : Nat) (h : l.length ≤ n) :
    l.take n = l := by
  induction l generalizing n with
  | nil => simp
  | cons a t ih =>
    cases n with
    | zero => simp at h
    | succ m => simp only [List.take_succ_cons]; rw [ih m (by simpa using h)]

theorem uc_go_page (limit : Nat) (acc : List UcRecord) (pg : List UcRecord × String)
    (tail : List (NetResult UcBody)) :
    fetch_user_contributions_go limit acc (ucPage pg :: tail) =
      (if limit ≤ (acc ++ pg.1).length then (acc ++ pg.1).take limit
       else fetch_user_contributions_go limit (acc ++ pg.1) tail) := rfl

/-- While the cap is not yet reached, consuming continuation pages just
extends the accumulator. -/
theorem uc_go_under (limit : Nat) (pages : List (List UcRecord × String)) :
    ∀ (acc : List UcRecord) (tail : List (NetResult UcBody)),
      acc.length + (ucItems pages).length < limit →
      fetch_user_contributions_go limit acc (mkUcScript pages ++ tail) =
        fetch_user_contributions_go limit (acc ++ ucItems pages) tail := by
  induction pages with
  | nil => intro acc tail h; simp [mkUcScript, ucItems]
  | cons pg rest ih =>
    intro acc tail h
    have hlen : (ucItems (pg :: rest)).length = pg.1.length + (ucItems rest).length := by
      simp [ucItems]
    rw [show mkUcScript (pg :: rest) ++ tail = ucPage pg :: (mkUcScript rest ++ tail) from rfl]
    rw [uc_go_page]
    rw [if_neg (by simp only [List.length_append]; omega)]
    rw [ih (acc ++ pg.1) tail (by simp only [List.length_append] at h ⊢; omega)]
    rw [show acc ++ pg.1 ++ ucItems rest = acc ++ (pg.1 ++ ucItems rest) from List.append_assoc _ _ _]
    rw [show pg.1 ++ ucItems rest = ucItems (pg :: rest) from by simp [ucItems]]

/-- Once enough records to meet the cap are scripted on continuation
pages, the fetcher returns the first `limit` records and never requests
anything beyond the page where the cap was reached. -/
theorem uc_go_cap (limit : Nat) (pages : List (List UcRecord × String)) :
    pages ≠ [] →
    ∀ (acc : List UcRecord) (tail : List (NetResult UcBody)),
      limit ≤ acc.length + (ucItems pages).length →
      fetch_user_contributions_go limit acc (mkUcScript pages ++ tail) =
        (acc ++ ucItems pages).take limit := by
  induction pages with
  | nil => intro h; exact absurd rfl h
  | cons pg rest ih =>
    intro _ acc tail h
    rw [show mkUcScript (pg :: rest) ++ tail = ucPage pg :: (mkUcScript rest ++ tail) from rfl]
    rw [uc_go_page]
    cases rest with
    | nil =>
      have hle : limit ≤ (acc ++ pg.1).length := by
        simp only [List.length_append]
        have : (ucItems [pg]).length = pg.1.length := by simp [ucItems]
        omega
      rw [if_pos hle]
      rw [show ucItems [pg] = pg.1 ++ [] from by simp [ucItems]]
      simp
    | cons pg2 rest2 =>
      by_cases hle : limit ≤ (acc ++ pg.1).length
      · rw [if_pos hle]
        rw [show acc ++ ucItems (pg :: pg2 :: rest2) = (acc ++ pg.1) ++ ucItems (pg2 :: rest2) from by
          simp [ucItems, List.append_assoc]]
        rw [take_append_left _ _ _ hle]
      · rw [if_neg hle]
        rw [ih (by simp) (acc ++ pg.1) tail ?_]
        · rw [show acc ++ pg.1 ++ ucItems (pg2 :: rest2) = acc ++ (pg.1 ++ ucItems (pg2 :: rest2)) from
            List.append_assoc _ _ _]
          rw [show pg.1 ++ ucItems (pg2 :: rest2) = ucItems (pg :: pg2 :: rest2) from by simp [ucItems]]
        · have hlen : (ucItems (pg :: pg2 :: rest2)).length
              = pg.1.length + (ucItems (pg2 :: rest2)).length := by simp [ucItems]
          simp only [List.length_append] at hle ⊢
          omega

theorem uc_go_zero (acc : List UcRecord) (script : List (NetResult UcBody)) :
    fetch_user_contributions_go 0 acc script = [] := by
  cases script with
  | nil => simp [fetch_user_contributions_go]
  | cons x rest =>
    cases x with
    | exn => rfl
    | resp st body =>
      by_cases hst : st = 200
      · subst hst
        cases hub : body.uccontinue with
        | some tok => simp [fetch_user_contributions_go, hub]
        | none => simp [fetch_user_contributions_go, hub]
      · simp [fetch_user_contributions_go, hst]

/-- C5: when the scripted contribution stream (every page carrying a
continuation token, i.e. more data remains upstream) holds at least the
configured cap of records, `fetch_user_contributions` returns exactly
`limit` records — the first `limit` in server-returned page order — and
never requests any scripted response past the page where the cap was
reached. -/
theorem claim_C5 (limit : Nat) (pages : List (List UcRecord × String))
    (extra : List (NetResult UcBody)) (h : limit ≤ (ucItems pages).length) :
    fetch_user_contributions limit (mkUcScript pages ++ extra) = (ucItems pages).take limit ∧
    (fetch_user_contributions limit (mkUcScript pages ++ extra)).length = limit := by
  have hmain : fetch_user_contributions limit (mkUcScript pages ++ extra)
      = (ucItems pages).take limit := by
    cases pages with
    | nil =>
      have h0 : limit = 0 := by
        have : (ucItems ([] : List (List UcRecord × String))).length = 0 := by simp [ucItems]
        omega
      subst h0
      simpa [fetch_user_contributions, mkUcScript] using uc_go_zero [] extra
    | cons pg rest =>
      have hc := uc_go_cap limit (pg :: rest) (by simp) [] extra (by simpa using h)
      simpa [fetch_user_contributions] using hc
  refine ⟨hmain, ?_⟩
  rw [hmain, List.length_take]
  omega

/-- Witness for C5: two scripted pages holding three records with cap 2;
the trailing transport fault is never requested. -/
theorem claim_C5_witness :
    2 ≤ (ucItems [(["a", "b"], "t1"), (["c"], "t2")]).length ∧
    (fetch_user_contributions 2 (mkUcScript [(["a", "b"], "t1"), (["c"], "t2")] ++ [NetResult.exn]) =
        (ucItems [(["a", "b"], "t1"), (["c"], "t2")]).take 2 ∧
      (fetch_user_contributions 2
          (mkUcScript [(["a", "b"], "t1"), (["c"], "t2")] ++ [NetResult.exn])).length = 2) :=
  ⟨by decide, claim_C5 2 [(["a", "b"], "t1"), (["c"], "t2")] [NetResult.exn] (by decide)⟩

theorem fetch_exturlusage_fault (lang domain : String) (f : NetResult ExtBody)
    (extra : List (NetResult ExtBody)) (hf : isFault f = true) :
    fetch_exturlusage lang domain (f :: extra) = [] := by
  cases f with
  | exn => rfl
  | resp st body =>
    have hst : ¬st = 200 := by simpa [isFault] using hf
    simp [fetch_exturlusage, hst]

theorem fetch_all_revisions_fault (f : NetResult RevBody)
    (extra : List (NetResult RevBody)) (hf : isFault f = true) :
    fetch_all_revisions (f :: extra) = [] := by
  cases f with
  | exn => rfl
  | resp st body =>
    have hst : ¬st = 200 := by simpa [isFault] using hf
    simp [fetch_all_revisions, hst]

/-- C6 amended: a transport fault or non-success status terminates each
pagination stream early with exactly the items collected from the pages
fetched before the fault, for the exturlusage and revision streams, and
for a non-success status in the contributions fetch; but a transport
exception in `fetch_user_contributions` is caught by a handler that
returns the empty list, discarding the records already collected. -/
theorem claim_C6 :
    (∀ (lang domain : String) (front : List (List ExtItem × String)) (f : NetResult ExtBody)
        (extra : List (NetResult ExtBody)), isFault f = true →
        fetch_exturlusage lang domain (extScriptFront front ++ f :: extra) =
          ((front.map Prod.fst).flatten).map (mkUsageRecord lang domain)) ∧
    (∀ (front : List (List Revision × String)) (f : NetResult RevBody)
        (extra : List (NetResult RevBody)), isFault f = true →
        fetch_all_revisions (revScriptFront front ++ f :: extra) =
          ((front.map Prod.fst).flatten).map Except.ok) ∧
    (∀ (limit : Nat) (pages : List (List UcRecord × String)) (code : Nat) (body : UcBody)
        (extra : List (NetResult UcBody)), code ≠ 200 → (ucItems pages).length < limit →
        fetch_user_contributions limit (mkUcScript pages ++ NetResult.resp code body :: extra) =
          ucItems pages) ∧
    (∀ (limit : Nat) (pages : List (List UcRecord × String)) (extra : List (NetResult UcBody)),
        (ucItems pages).length < limit →
        fetch_user_contributions limit (mkUcScript pages ++ NetResult.exn :: extra) = []) := by
  refine ⟨?_, ?_, ?_, ?_⟩
  · intro lang domain front f extra hf
    rw [fetch_exturlusage_front, fetch_exturlusage_fault lang domain f extra hf, List.append_nil]
  · intro front f extra hf
    rw [fetch_all_revisions_front, fetch_all_revisions_fault f extra hf, List.append_nil]
  · intro limit pages code body extra hcode hlen
    have hu := uc_go_under limit pages [] (NetResult.resp code body :: extra) (by simpa using hlen)
    rw [fetch_user_contributions, hu, List.nil_append]
    have hresp : fetch_user_contributions_go limit (ucItems pages)
        (NetResult.resp code body :: extra) = (ucItems pages).take limit := by
      simp [fetch_user_contributions_go, hcode]
    rw [hresp]
    exact take_of_le_length _ _ (Nat.le_of_lt hlen)
  · intro limit pages extra hlen
    have hu := uc_go_under limit pages [] (NetResult.exn :: extra) (by simpa using hlen)
    rw [fetch_user_contributions, hu]
    rfl

/-- Witness for the C6 amended theorem at concrete faulted scripts. -/
theorem claim_C6_witness :
    fetch_exturlusage "en" "d" (extScriptFront [] ++ NetResult.exn :: []) =
      ((([] : List (List ExtItem × String)).map Prod.fst).flatten).map (mkUsageRecord "en" "d") ∧
    fetch_all_revisions (revScriptFront [] ++ NetResult.exn :: []) =
      ((([] : List (List Revision × String)).map Prod.fst).flatten).map Except.ok ∧
    fetch_user_contributions 5
        (mkUcScript [(["c1"], "t")] ++ NetResult.resp 404 { usercontribs := none, uccontinue := none } :: []) =
      ucItems [(["c1"], "t")] ∧
    fetch_user_contributions 5 (mkUcScript [(["c1"], "t")] ++ NetResult.exn :: []) = [] :=
  ⟨claim_C6.1 "en" "d" [] NetResult.exn [] (by decide),
   claim_C6.2.1 [] NetResult.exn [] (by decide),
   claim_C6.2.2.1 5 [(["c1"], "t")] 404 { usercontribs := none, uccontinue := none } [] (by decide) (by decide),
   claim_C6.2.2.2 5 [(["c1"], "t")] [] (by decide)⟩

/-- C6 counterexample: with one record already collected from a
successful page, a transport fault on the next page makes
`fetch_user_contributions` return `[]` — fewer items than were already
collected (running the fault-free one-page script shows the record had
been collected), so the claimed never-fewer-than-collected property is
false. -/
theorem claim_C6_counterexample :
    fetch_user_contributions 10 ucFaultScriptEx = [] ∧
    fetch_user_contributions 10 (ucFaultScriptEx.take 1) = ["c1"] ∧
    ([] : List UcRecord) ≠ ["c1"] :=
  ⟨rfl, rfl, by decide⟩

/-- C7 counterexample: a response whose revision object lacks the
`timestamp` field is *not* treated as "nothing found" — the `KeyError`
raised by `rev["timestamp"]` propagates out of the revision stream into
`find_introduction_user`, whose caller observes the exception instead
of an empty result. -/
theorem claim_C7_counterexample :
    find_introduction_user "x"
        (fetch_all_revisions
          [NetResult.resp 200 { pages := some [[badTimestampRev]], rvcontinue := none }]) =
      .error () ∧
    find_introduction_user "x"
        (fetch_all_revisions
          [NetResult.resp 200 { pages := some [[badTimestampRev]], rvcontinue := none }]) ≠
      .ok (none, none) :=
  ⟨rfl, by decide⟩

/-- C7 amended: a response lacking the `query` wrapper (or the
`exturlusage` / `pages` / `usercontribs` lists) is treated as nothing
found for that query, and a revision's missing `user` or missing `"*"`
content defaults to the empty string; but a revision object lacking the
`timestamp` field or the `slots`/`main` structure raises a `KeyError`
that escapes the scan rather than yielding an empty result. -/
theorem claim_C7 :
    (∀ (c : String) (rest : List (NetResult RevBody)),
        fetch_all_revisions (NetResult.resp 200 { pages := none, rvcontinue := some c } :: rest) =
          fetch_all_revisions rest) ∧
    (∀ rest : List (NetResult RevBody),
        fetch_all_revisions (NetResult.resp 200 { pages := none, rvcontinue := none } :: rest) = []) ∧
    (∀ (lang domain : String) (c : Option String) (rest : List (NetResult ExtBody)),
        fetch_exturlusage lang domain
          (NetResult.resp 200 { exturlusage := none, euecontinue := c } :: rest) = []) ∧
    (∀ limit : Nat,
        fetch_user_contributions limit
          [NetResult.resp 200 { usercontribs := none, uccontinue := none }] = []) ∧
    (∀ (ts : String) (sl : RawSlots),
        parseRev { timestamp := some ts, user := none, slots := some sl } =
          .ok { timestamp := ts, user := "", content := sl.star.getD (some "") }) ∧
    (∀ ts u : String,
        parseRev { timestamp := some ts, user := some u, slots := some { star := none } } =
          .ok { timestamp := ts, user := u, content := some "" }) ∧
    (∀ (u : Option String) (sl : Option RawSlots),
        parseRev { timestamp := none, user := u, slots := sl } = .error ()) ∧
    (∀ (ts : String) (u : Option String),
        parseRev { timestamp := some ts, user := u, slots := none } = .error ()) := by
  refine ⟨fun c rest => rfl, fun rest => rfl, fun lang domain c rest => rfl, ?_, fun ts sl => rfl,
          fun ts u => rfl, fun u sl => rfl, fun ts u => rfl⟩
  intro limit
  simp [fetch_user_contributions, fetch_user_contributions_go]

/-- C8: a `(site, editor)` pair is appended to the pair stream if and
only if the introduction lookup returned a non-empty editor name (absent
or empty introducers contribute nothing), so every pair entering Phase 2
has a non-empty editor name. -/
theorem claim_C8 (lang : String) (lookup : String → String → Option String × Option String)
    (recs : List UsageRecord) :
    (process_lang_domain_pair lang lookup recs).2 =
      recs.filterMap (fun rec =>
        match (lookup rec.page_title rec.url).1 with
        | none => none
        | some u => if u = "" then none else some (lang, u)) ∧
    ∀ p ∈ (process_lang_domain_pair lang lookup recs).2, p.2 ≠ "" := by
  induction recs with
  | nil => exact ⟨rfl, fun p hp => absurd hp (by simp [process_lang_domain_pair])⟩
  | cons rec rest ih =>
    obtain ⟨ih1, ih2⟩ := ih
    constructor
    · cases hl : (lookup rec.page_title rec.url).1 with
      | none =>
        simp [process_lang_domain_pair, enrichRecord, hl, List.filterMap_cons, ih1]
      | some u =>
        by_cases hu : u = ""
        · simp [process_lang_domain_pair, enrichRecord, hl, hu, List.filterMap_cons, ih1]
        · simp [process_lang_domain_pair, enrichRecord, hl, hu, List.filterMap_cons, ih1]
    · intro p hp
      cases hl : (lookup rec.page_title rec.url).1 with
      | none =>
        exact ih2 p (by simpa [process_lang_domain_pair, enrichRecord, hl] using hp)
      | some u =>
        by_cases hu : u = ""
        · exact ih2 p (by simpa [process_lang_domain_pair, enrichRecord, hl, hu] using hp)
        · have hp2 : p = (lang, u) ∨ p ∈ (process_lang_domain_pair lang lookup rest).2 := by
            simpa [process_lang_domain_pair, enrichRecord, hl, hu] using hp
          cases hp2 with
          | inl he => rw [he]; exact hu
          | inr hm => exact ih2 p hm

/-- Witness for C8 at a concrete record and lookup. -/
theorem claim_C8_witness :
    (process_lang_domain_pair "en" lookupEx [usageRecEx]).2 =
      [usageRecEx].filterMap (fun rec =>
        match (lookupEx rec.page_title rec.url).1 with
        | none => none
        | some u => if u = "" then none else some ("en", u)) ∧
    ∀ p ∈ (process_lang_domain_pair "en" lookupEx [usageRecEx]).2, p.2 ≠ "" :=
  claim_C8 "en" lookupEx [usageRecEx]

/-! ## Missing or null revision content (C9) -/
theorem memSub_nil_of_ne (l : List Char) (h : l ≠ []) : memSub l [] = false := by
  cases l with
  | nil => exact absurd rfl h
  | cons a as => rfl

theorem string_toList_eq_nil (s : String) (h : s.toList = []) : s = "" := by
  cases s with
  | mk data =>
    cases data with
    | nil => rfl
    | cons c cs => exact List.noConfusion h

/-- C9 counterexample: for the empty target url (exturlusage items are
read with `item.get("url", "")`, so `""` is a possible target), a
revision whose content is `None` tests as *present* — Python's
`"" in ""` is `True` — and is even reported as the introduction point,
contradicting the claim that the url tests as absent there. -/
theorem claim_C9_counterexample :
    linkPresent "" { timestamp := "t", user := "u", content := none } = true ∧
    find_introduction_user "" [Except.ok { timestamp := "t", user := "u", content := none }] =
      .ok (some "u", some "t") :=
  ⟨rfl, rfl⟩

/-- C9 amended: a revision whose `"*"` content field is missing parses
with content `""`, and one whose content is `None` parses with content
`None` and is scanned as the empty string via `rev["content"] or ""`;
provided the target url is non-empty, the url tests as absent in such a
revision and the scan proceeds unchanged, without failing. -/
theorem claim_C9 (ts u url : String) (rest : List (Except Unit Revision)) (h : url ≠ "") :
    parseRev { timestamp := some ts, user := some u, slots := some { star := none } } =
      .ok { timestamp := ts, user := u, content := some "" } ∧
    parseRev { timestamp := some ts, user := some u, slots := some { star := some none } } =
      .ok { timestamp := ts, user := u, content := none } ∧
    linkPresent url { timestamp := ts, user := u, content := some "" } = false ∧
    linkPresent url { timestamp := ts, user := u, content := none } = false ∧
    find_introduction_user url (Except.ok { timestamp := ts, user := u, content := none } :: rest) =
      find_introduction_user url rest ∧
    find_introduction_user url (Except.ok { timestamp := ts, user := u, content := some "" } :: rest) =
      find_introduction_user url rest := by
  have hne : url.toList ≠ [] := fun hl => h (string_toList_eq_nil url hl)
  have hlp1 : linkPresent url { timestamp := ts, user := u, content := some "" } = false :=
    memSub_nil_of_ne url.toList hne
  have hlp2 : linkPresent url { timestamp := ts, user := u, content := none } = false :=
    memSub_nil_of_ne url.toList hne
  refine ⟨rfl, rfl, hlp1, hlp2, ?_, ?_⟩
  · have hstep : find_introduction_user url
        (Except.ok { timestamp := ts, user := u, content := none } :: rest) =
        if linkPresent url { timestamp := ts, user := u, content := none } && !false
        then .ok (some u, some ts)
        else introLoop url (linkPresent url { timestamp := ts, user := u, content := none }) rest := rfl
    rw [hstep, hlp2]
    rfl
  · have hstep : find_introduction_user url
        (Except.ok { timestamp := ts, user := u, content := some "" } :: rest) =
        if linkPresent url { timestamp := ts, user := u, content := some "" } && !false
        then .ok (some u, some ts)
        else introLoop url (linkPresent url { timestamp := ts, user := u, content := some "" }) rest := rfl
    rw [hstep, hlp1]
    rfl

/-- Witness for the C9 amended theorem at a concrete non-empty url. -/
theorem claim_C9_witness :
    parseRev { timestamp := some "t", user := some "u", slots := some { star := none } } =
      .ok { timestamp := "t", user := "u", content := some "" } ∧
    parseRev { timestamp := some "t", user := some "u", slots := some { star := some none } } =
      .ok { timestamp := "t", user := "u", content := none } ∧
    linkPresent "x" { timestamp := "t", user := "u", content := some "" } = false ∧
    linkPresent "x" { timestamp := "t", user := "u", content := none } = false ∧
    find_introduction_user "x" (Except.ok { timestamp := "t", user := "u", content := none } :: []) =
      find_introduction_user "x" [] ∧
    find_introduction_user "x" (Except.ok { timestamp := "t", user := "u", content := some "" } :: []) =
      find_introduction_user "x" [] :=
  claim_C9 "t" "u" "x" [] (by decide)

theorem splitNl_ne_nil (cs : List Char) : splitNl cs ≠ [] := by
  cases cs with
  | nil => simp [splitNl]
  | cons c rest =>
    by_cases hc : c = '\n'
    · simp [splitNl, hc]
    · simp only [splitNl, if_neg hc]
      cases h : splitNl rest with
      | nil => simp
      | cons l ls => simp

theorem splitNl_append_nl (l : List Char) (hnl : '\n' ∉ l) (cs : List Char) :
    splitNl (l ++ '\n' :: cs) = l :: splitNl cs := by
  induction l with
  | nil => simp [splitNl]
  | cons c t ih =>
    have hc : ¬c = '\n' := fun he => hnl (he ▸ List.mem_cons_self c t)
    have ht : '\n' ∉ t := fun hm => hnl (List.mem_cons_of_mem c hm)
    simp only [List.cons_append, splitNl, if_neg hc, List.append_eq]
    rw [ih ht]

theorem splitNl_writerFile_last (pairs : List (String × String))
    (h : ∀ p ∈ pairs, '\n' ∉ pairLine p) :
    (splitNl (writerFile pairs)).getLast? = some [] := by
  induction pairs with
  | nil => simp [writerFile, splitNl]
  | cons p ps ih =>
    have hfile : writerFile (p :: ps) = pairLine p ++ '\n' :: writerFile ps := by
      simp [writerFile, List.append_assoc]
    rw [hfile, splitNl_append_nl (pairLine p) (h p (List.mem_cons_self p ps)) (writerFile ps)]
    cases hrest : splitNl (writerFile ps) with
    | nil => exact absurd hrest (splitNl_ne_nil (writerFile ps))
    | cons l ls =>
      rw [List.getLast?_cons_cons]
      rw [← hrest]
      exact ih fun q hq => h q (List.mem_cons_of_mem p hq)

theorem hostLines_writerFile (pairs : List (String × String))
    (h : ∀ p ∈ pairs, '\n' ∉ pairLine p) :
    hostLines (writerFile pairs) = pairs.map pairLine := by
  induction pairs with
  | nil => simp [writerFile, hostLines, splitNl]
  | cons p ps ih =>
    have hfile : writerFile (p :: ps) = pairLine p ++ '\n' :: writerFile ps := by
      simp [writerFile, List.append_assoc]
    have htail : ∀ q ∈ ps, '\n' ∉ pairLine q := fun q hq => h q (List.mem_cons_of_mem p hq)
    have hsplit : splitNl (writerFile (p :: ps)) = pairLine p :: splitNl (writerFile ps) := by
      rw [hfile, splitNl_append_nl (pairLine p) (h p (List.mem_cons_self p ps)) (writerFile ps)]
    have hlast : (splitNl (writerFile ps)).getLast? = some [] :=
      splitNl_writerFile_last ps htail
    have hlast2 : (splitNl (writerFile (p :: ps))).getLast? = some [] :=
      splitNl_writerFile_last (p :: ps) h
    rw [hostLines, if_pos hlast2, hsplit]
    cases hrest : splitNl (writerFile ps) with
    | nil => exact absurd hrest (splitNl_ne_nil (writerFile ps))
    | cons l ls =>
      rw [List.dropLast_cons_of_ne_nil (by simp)]
      have : hostLines (writerFile ps) = ps.map pairLine := ih htail
      rw [hostLines, if_pos hlast, hrest] at this
      rw [this, List.map_cons]

theorem lexLe_total (a : List Char) : ∀ b, lexLe a b = true ∨ lexLe b a = true := by
  induction a with
  | nil => intro b; left; rfl
  | cons x xs ih =>
    intro b
    cases b with
    | nil => right; rfl
    | cons y ys =>
      by_cases hxy : x = y
      · subst hxy
        cases ih ys with
        | inl h => left; simpa [lexLe] using h
        | inr h => right; simpa [lexLe] using h
      · rcases lt_trichotomy x y with hlt | heq | hgt
        · left; simp [lexLe, hxy, hlt]
        · exact absurd heq hxy
        · have hyx : ¬y = x := fun he => hxy he.symm
          right; simp [lexLe, hyx, hgt]

theorem lexLe_trans (a : List Char) :
    ∀ b c, lexLe a b = true → lexLe b c = true → lexLe a c = true := by
  induction a with
  | nil => intro b c _ _; rfl
  | cons x xs ih =>
    intro b c hab hbc
    cases b with
    | nil => exact absurd hab (by simp [lexLe])
    | cons y ys =>
      cases c with
      | nil => exact absurd hbc (by simp [lexLe])
      | cons z zs =>
        by_cases hxy : x = y
        · subst hxy
          by_cases hyz : x = z
          · subst hyz
            have h1 : lexLe xs ys = true := by simpa [lexLe] using hab
            have h2 : lexLe ys zs = true := by simpa [lexLe] using hbc
            simpa [lexLe] using ih ys zs h1 h2
          · have h2 : x < z := by
              have := hbc
              simp only [lexLe, if_neg hyz] at this
              exact of_decide_eq_true this
            simp [lexLe, hyz, h2]
        · have h1 : x < y := by
            have := hab
            simp only [lexLe, if_neg hxy] at this
            exact of_decide_eq_true this
          by_cases hyz : y = z
          · subst hyz
            simp [lexLe, hxy, h1]
          · have h2 : y < z := by
              have := hbc
              simp only [lexLe, if_neg hyz] at this
              exact of_decide_eq_true this
            have h3 : x < z := lt_trans h1 h2
            have hxz : ¬x = z := ne_of_lt h3
            simp [lexLe, hxz, h3]

theorem lexLe_antisymm (a : List Char) :
    ∀ b, lexLe a b = true → lexLe b a = true → a = b := by
  induction a with
  | nil =>
    intro b _ hba
    cases b with
    | nil => rfl
    | cons y ys => exact absurd hba (by simp [lexLe])
  | cons x xs ih =>
    intro b hab hba
    cases b with
    | nil => exact absurd hab (by simp [lexLe])
    | cons y ys =>
      by_cases hxy : x = y
      · subst hxy
        have h1 : lexLe xs ys = true := by simpa [lexLe] using hab
        have h2 : lexLe ys xs = true := by simpa [lexLe] using hba
        rw [ih ys h1 h2]
      · have h1 : x < y := by
          have := hab
          simp only [lexLe, if_neg hxy] at this
          exact of_decide_eq_true this
        have h2 : y < x := by
          have := hba
          simp only [lexLe, if_neg (fun he : y = x => hxy he.symm)] at this
          exact of_decide_eq_true this
        exact absurd h2 (lt_asymm h1)

theorem uniqAdjTail_subset {α : Type} [DecidableEq α] (l : List α) :
    ∀ (prev x : α), x ∈ uniqAdjTail prev l → x ∈ l := by
  induction l with
  | nil => intro prev x h; simp [uniqAdjTail] at h
  | cons b rest ih =>
    intro prev x h
    by_cases hpb : prev = b
    · simp only [uniqAdjTail, if_pos hpb] at h
      exact List.mem_cons_of_mem b (ih b x h)
    · simp only [uniqAdjTail, if_neg hpb] at h
      cases h with
      | head => exact List.mem_cons_self b rest
      | tail _ hm => exact List.mem_cons_of_mem b (ih b x hm)

theorem mem_uniqAdjTail_of_mem {α : Type} [DecidableEq α] (l : List α) :
    ∀ (prev x : α), x ∈ l → x ∈ uniqAdjTail prev l ∨ x = prev := by
  induction l with
  | nil => intro prev x h; simp at h
  | cons b rest ih =>
    intro prev x h
    by_cases hpb : prev = b
    · cases h with
      | head => right; exact hpb.symm
      | tail _ hm =>
        cases ih b x hm with
        | inl hin => left; simpa [uniqAdjTail, if_pos hpb] using hin
        | inr heq => right; rw [heq, hpb]
    · cases h with
      | head => left; simp [uniqAdjTail, if_neg hpb]
      | tail _ hm =>
        cases ih b x hm with
        | inl hin => left; simp only [uniqAdjTail, if_neg hpb]; exact List.mem_cons_of_mem b hin
        | inr heq => left; simp [uniqAdjTail, if_neg hpb, heq]

theorem mem_uniqAdj {α : Type} [DecidableEq α] (l : List α) (x : α) :
    x ∈ uniqAdj l ↔ x ∈ l := by
  cases l with
  | nil => simp [uniqAdj]
  | cons a rest =>
    simp only [uniqAdj, List.mem_cons]
    constructor
    · intro h
      cases h with
      | inl hx => exact Or.inl hx
      | inr hm => exact Or.inr (uniqAdjTail_subset rest a x hm)
    · intro h
      cases h with
      | inl hx => exact Or.inl hx
      | inr hm =>
        cases mem_uniqAdjTail_of_mem rest a x hm with
        | inl hin => exact Or.inr hin
        | inr heq => exact Or.inl heq

theorem uniqAdjTail_strong {α : Type} [DecidableEq α] (r : α → α → Prop)
    (htrans : ∀ a b c, r a b → r b c → r a c)
    (hanti : ∀ a b, r a b → r b a → a = b) (l : List α) :
    ∀ prev : α, List.Pairwise r (prev :: l) →
      (uniqAdjTail prev l).Nodup ∧ ∀ x ∈ uniqAdjTail prev l, x ≠ prev ∧ r prev x := by
  induction l with
  | nil => intro prev _; exact ⟨List.nodup_nil, fun x hx => absurd hx (by simp [uniqAdjTail])⟩
  | cons b rest ih =>
    intro prev hp
    have hpb_r : r prev b := (List.pairwise_cons.mp hp).1 b (List.mem_cons_self b rest)
    have hbrest : List.Pairwise r (b :: rest) := (List.pairwise_cons.mp hp).2
    obtain ⟨hnd, hall⟩ := ih b hbrest
    by_cases hpb : prev = b
    · refine ⟨by simpa [uniqAdjTail, if_pos hpb] using hnd, ?_⟩
      intro x hx
      have hx' : x ∈ uniqAdjTail b rest := by simpa [uniqAdjTail, if_pos hpb] using hx
      exact ⟨hpb ▸ (hall x hx').1, hpb ▸ (hall x hx').2⟩
    · constructor
      · simp only [uniqAdjTail, if_neg hpb]
        refine List.nodup_cons.mpr ⟨fun hb => ?_, hnd⟩
        exact absurd rfl (hall b hb).1
      · intro x hx
        simp only [uniqAdjTail, if_neg hpb] at hx
        cases hx with
        | head => exact ⟨fun he => hpb he.symm, hpb_r⟩
        | tail _ hm =>
          refine ⟨fun he => ?_, htrans prev b x hpb_r (hall x hm).2⟩
          exact hpb (hanti prev b hpb_r (he ▸ (hall x hm).2))

theorem uniqAdj_nodup {α : Type} [DecidableEq α] (r : α → α → Prop)
    (htrans : ∀ a b c, r a b → r b c → r a c)
    (hanti : ∀ a b, r a b → r b a → a = b) (l : List α) (h : List.Pairwise r l) :
    (uniqAdj l).Nodup := by
  cases l with
  | nil => exact List.nodup_nil
  | cons a rest =>
    obtain ⟨hnd, hall⟩ := uniqAdjTail_strong r htrans hanti rest a h
    exact List.nodup_cons.mpr ⟨fun ha => absurd rfl (hall a ha).1, hnd⟩

theorem sortUniq_nodup (lines : List (List Char)) : (sortUniq lines).Nodup := by
  refine uniqAdj_nodup lexLeP (fun a b c => lexLe_trans a b c) (fun a b => lexLe_antisymm a b)
    (List.insertionSort lexLeP lines) ?_
  exact @List.sorted_insertionSort (List Char) lexLeP _ ⟨fun a b => lexLe_total a b⟩
    ⟨fun a b c => lexLe_trans a b c⟩ lines

theorem mem_sortUniq (lines : List (List Char)) (x : List Char) :
    x ∈ sortUniq lines ↔ x ∈ lines := by
  rw [sortUniq, mem_uniqAdj]
  exact (List.perm_insertionSort lexLeP lines).mem_iff

theorem mk_toList (s : String) : String.mk s.toList = s := rfl

theorem pyStrip_clean (site editor : List Char)
    (hs : headNotSpace site = true) (he : headNotSpace editor.reverse = true) :
    pyStrip (site ++ ',' :: editor) = site ++ ',' :: editor := by
  have hcomma : isPySpace ',' = false := by decide
  have h1 : (site ++ ',' :: editor).dropWhile isPySpace = site ++ ',' :: editor := by
    cases site with
    | nil => simp [List.dropWhile_cons, hcomma]
    | cons c t =>
      have hc : isPySpace c = false := by simpa [headNotSpace] using hs
      simp [List.dropWhile_cons, hc]
  have hrev : (site ++ ',' :: editor).reverse = editor.reverse ++ ',' :: site.reverse := by
    simp [List.reverse_append, List.reverse_cons, List.append_assoc]
  have h2 : (editor.reverse ++ ',' :: site.reverse).dropWhile isPySpace
      = editor.reverse ++ ',' :: site.reverse := by
    cases hre : editor.reverse with
    | nil => simp [List.dropWhile_cons, hcomma]
    | cons c t =>
      have hc : isPySpace c = false := by rw [hre] at he; simpa [headNotSpace] using he
      simp [List.dropWhile_cons, hc]
  unfold pyStrip
  rw [h1, hrev, h2]
  simp [List.reverse_append, List.reverse_cons, List.reverse_reverse, List.append_assoc]

theorem splitComma_append (site editor : List Char) (h : ',' ∉ site) :
    splitComma (site ++ ',' :: editor) = some (site, editor) := by
  induction site with
  | nil => simp [splitComma]
  | cons c t ih =>
    have hc : ¬c = ',' := fun he => h (he ▸ List.mem_cons_self c t)
    have ht : ',' ∉ t := fun hm => h (List.mem_cons_of_mem c hm)
    simp [splitComma, hc, ih ht]

theorem pairLine_no_nl (p : String × String)
    (h1 : siteOk p.1 = true) (h2 : editorOk p.2 = true) : '\n' ∉ pairLine p := by
  have h1' := h1
  simp only [siteOk, Bool.and_eq_true, decide_eq_true_eq] at h1'
  obtain ⟨⟨_, hn1, _⟩, _⟩ := h1'
  have h2' := h2
  simp only [editorOk, Bool.and_eq_true, decide_eq_true_eq] at h2'
  obtain ⟨⟨hn2, _⟩, _⟩ := h2'
  intro hm
  unfold pairLine at hm
  rcases List.mem_append.mp hm with h | h
  · exact hn1 h
  · rcases List.mem_cons.mp h with h | h
    · exact absurd h (by decide)
    · exact hn2 h

theorem pairLine_no_cr (p : String × String)
    (h1 : siteOk p.1 = true) (h2 : editorOk p.2 = true) : '\r' ∉ pairLine p := by
  have h1' := h1
  simp only [siteOk, Bool.and_eq_true, decide_eq_true_eq] at h1'
  obtain ⟨⟨_, _, hr1⟩, _⟩ := h1'
  have h2' := h2
  simp only [editorOk, Bool.and_eq_true, decide_eq_true_eq] at h2'
  obtain ⟨⟨_, hr2⟩, _⟩ := h2'
  intro hm
  unfold pairLine at hm
  rcases List.mem_append.mp hm with h | h
  · exact hr1 h
  · rcases List.mem_cons.mp h with h | h
    · exact absurd h (by decide)
    · exact hr2 h

theorem parsePairLine_pairLine (p : String × String)
    (h1 : siteOk p.1 = true) (h2 : editorOk p.2 = true) :
    parsePairLine (pairLine p) = .ok p := by
  have h1' := h1
  simp only [siteOk, Bool.and_eq_true, decide_eq_true_eq] at h1'
  obtain ⟨⟨hc1, _⟩, hb⟩ := h1'
  have h2' := h2
  simp only [editorOk, Bool.and_eq_true, decide_eq_true_eq] at h2'
  obtain ⟨_, hb2⟩ := h2'
  have hstrip : pyStrip (pairLine p) = p.1.toList ++ ',' :: p.2.toList :=
    pyStrip_clean p.1.toList p.2.toList hb hb2
  have hnil : p.1.toList ++ ',' :: p.2.toList ≠ [] := by simp
  have hsplit : splitComma (p.1.toList ++ ',' :: p.2.toList) = some (p.1.toList, p.2.toList) :=
    splitComma_append p.1.toList p.2.toList hc1
  unfold parsePairLine
  rw [hstrip, if_neg hnil, hsplit]
  show LineParse.ok (String.mk p.1.toList, String.mk p.2.toList) = LineParse.ok p
  rw [mk_toList, mk_toList]

theorem univNlGo_no_cr (cs : List Char) (h : '\r' ∉ cs) : univNlGo false cs = cs := by
  induction cs with
  | nil => rfl
  | cons c rest ih =>
    have hc : ¬c = '\r' := fun he => h (he ▸ List.mem_cons_self c rest)
    have ht : '\r' ∉ rest := fun hm => h (List.mem_cons_of_mem c hm)
    by_cases hn : c = '\n'
    · subst hn
      simp [univNlGo, ih ht]
    · simp [univNlGo, hc, hn, ih ht]

theorem joinLines_no_cr (ls : List (List Char)) (h : ∀ l ∈ ls, '\r' ∉ l) :
    '\r' ∉ joinLines ls := by
  induction ls with
  | nil => simp [joinLines]
  | cons l rest ih =>
    intro hm
    have hfile : joinLines (l :: rest) = l ++ '\n' :: joinLines rest := by
      simp [joinLines, List.append_assoc]
    rw [hfile] at hm
    rcases List.mem_append.mp hm with hml | hmr
    · exact h l (List.mem_cons_self l rest) hml
    · rcases List.mem_cons.mp hmr with he | hm2
      · exact absurd he (by decide)
      · exact ih (fun q hq => h q (List.mem_cons_of_mem l hq)) hm2

theorem splitNl_joinLines_last (ls : List (List Char)) (h : ∀ l ∈ ls, '\n' ∉ l) :
    (splitNl (joinLines ls)).getLast? = some [] := by
  induction ls with
  | nil => simp [joinLines, splitNl]
  | cons l rest ih =>
    have hfile : joinLines (l :: rest) = l ++ '\n' :: joinLines rest := by
      simp [joinLines, List.append_assoc]
    rw [hfile, splitNl_append_nl l (h l (List.mem_cons_self l rest)) (joinLines rest)]
    cases hrest : splitNl (joinLines rest) with
    | nil => exact absurd hrest (splitNl_ne_nil (joinLines rest))
    | cons x xs =>
      rw [List.getLast?_cons_cons]
      rw [← hrest]
      exact ih fun q hq => h q (List.mem_cons_of_mem l hq)

theorem hostLines_joinLines (ls : List (List Char)) (h : ∀ l ∈ ls, '\n' ∉ l) :
    hostLines (joinLines ls) = ls := by
  induction ls with
  | nil => simp [joinLines, hostLines, splitNl]
  | cons l rest ih =>
    have hfile : joinLines (l :: rest) = l ++ '\n' :: joinLines rest := by
      simp [joinLines, List.append_assoc]
    have htail : ∀ q ∈ rest, '\n' ∉ q := fun q hq => h q (List.mem_cons_of_mem l hq)
    have hsplit : splitNl (joinLines (l :: rest)) = l :: splitNl (joinLines rest) := by
      rw [hfile, splitNl_append_nl l (h l (List.mem_cons_self l rest)) (joinLines rest)]
    have hlast : (splitNl (joinLines rest)).getLast? = some [] :=
      splitNl_joinLines_last rest htail
    have hlast2 : (splitNl (joinLines (l :: rest))).getLast? = some [] :=
      splitNl_joinLines_last (l :: rest) h
    rw [hostLines, if_pos hlast2, hsplit]
    cases hrest : splitNl (joinLines rest) with
    | nil => exact absurd hrest (splitNl_ne_nil (joinLines rest))
    | cons x xs =>
      rw [List.dropLast_cons_of_ne_nil (by simp)]
      have hih : hostLines (joinLines rest) = rest := ih htail
      rw [hostLines, if_pos hlast, hrest] at hih
      rw [hih]

theorem readerLines_joinLines (ls : List (List Char))
    (h : ∀ l ∈ ls, '\n' ∉ l ∧ '\r' ∉ l) :
    readerLines (joinLines ls) = ls := by
  unfold readerLines univNl
  rw [univNlGo_no_cr (joinLines ls) (joinLines_no_cr ls fun l hl => (h l hl).2)]
  exact hostLines_joinLines ls fun l hl => (h l hl).1

theorem collectPairs_strong (ls : List (List Char))
    (h : ∀ l ∈ ls, ∃ p : String × String, parsePairLine l = .ok p) :
    ∃ res : List (String × String), collectPairs ls = .ok res ∧
      (∀ q, q ∈ res ↔ ∃ l ∈ ls, parsePairLine l = .ok q) ∧
      (ls.Nodup →
        (∀ l1 ∈ ls, ∀ l2 ∈ ls, ∀ q, parsePairLine l1 = .ok q → parsePairLine l2 = .ok q →
          l1 = l2) →
        res.Nodup) := by
  induction ls with
  | nil =>
    refine ⟨[], rfl, ?_, fun _ _ => List.nodup_nil⟩
    intro q; simp
  | cons l rest ih =>
    obtain ⟨p, hp⟩ := h l (List.mem_cons_self l rest)
    obtain ⟨res', hres', hmem', hnodup'⟩ := ih fun l' hl' => h l' (List.mem_cons_of_mem l hl')
    refine ⟨p :: res', ?_, ?_, ?_⟩
    · show (match parsePairLine l with
            | .fail => Except.error ()
            | .skip => collectPairs rest
            | .ok p => (collectPairs rest).map fun ps => p :: ps) = Except.ok (p :: res')
      rw [hp, hres']
      rfl
    · intro q
      constructor
      · intro hq
        rcases List.mem_cons.mp hq with hq | hq
        · exact ⟨l, List.mem_cons_self l rest, by rw [hq]; exact hp⟩
        · obtain ⟨l', hl', hpl'⟩ := (hmem' q).mp hq
          exact ⟨l', List.mem_cons_of_mem l hl', hpl'⟩
      · rintro ⟨l', hl', hpl'⟩
        rcases List.mem_cons.mp hl' with he | hm
        · subst he
          have hpq : p = q := LineParse.ok.inj (hp.symm.trans hpl')
          exact hpq ▸ List.mem_cons_self p res'
        · exact List.mem_cons_of_mem p ((hmem' q).mpr ⟨l', hm, hpl'⟩)
    · intro hnd hinj
      have hlnotin := (List.nodup_cons.mp hnd).1
      have hnd' := (List.nodup_cons.mp hnd).2
      refine List.nodup_cons.mpr ⟨?_, hnodup' hnd' ?_⟩
      · intro hpin
        obtain ⟨l', hl', hpl'⟩ := (hmem' p).mp hpin
        have heq : l = l' :=
          hinj l (List.mem_cons_self l rest) l' (List.mem_cons_of_mem l hl') p hp hpl'
        exact hlnotin (heq ▸ hl')
      · intro l1 hl1 l2 hl2 q hq1 hq2
        exact hinj l1 (List.mem_cons_of_mem l hl1) l2 (List.mem_cons_of_mem l hl2) q hq1 hq2

/-- C3 counterexample: adding the single pair `("a,b", "c")` — a site
containing a comma — makes finalization yield the different pair
`("a", "b,c")` (the first-comma split point moved), so the finalized
set does not consist of exactly the distinct added pairs. -/
theorem claim_C3_counterexample :
    dedupFinalize [("a,b", "c")] = .ok [("a", "b,c")] ∧
    (("a,b", "c") : String × String) ∉ [(("a", "b,c") : String × String)] ∧
    (("a", "b,c") : String × String) ≠ ("a,b", "c") := by
  refine ⟨rfl, by decide, by decide⟩

/-- C3 amended: for every sequence of added pairs whose sites contain
no comma, no newline, no carriage return and no leading whitespace (in
Python's Unicode whitespace class), and whose editors contain no
newline, no carriage return and no trailing whitespace, finalization
(write, `sort`, `uniq`, text-mode read back) succeeds and returns each
distinct added pair exactly once and nothing else, in any order of
addition and with any number of duplicate inserts. -/
theorem claim_C3 (pairs : List (String × String))
    (h : ∀ p ∈ pairs, siteOk p.1 = true ∧ editorOk p.2 = true) :
    ∃ res : List (String × String), dedupFinalize pairs = .ok res ∧ res.Nodup ∧
      ∀ q, q ∈ res ↔ q ∈ pairs := by
  have hnl : ∀ p ∈ pairs, '\n' ∉ pairLine p := fun p hp =>
    pairLine_no_nl p (h p hp).1 (h p hp).2
  have hlines : hostLines (writerFile pairs) = pairs.map pairLine :=
    hostLines_writerFile pairs hnl
  have hmemlines : ∀ l ∈ sortUniq (pairs.map pairLine), ∃ p ∈ pairs, l = pairLine p := by
    intro l hl
    obtain ⟨p, hp, he⟩ := List.mem_map.mp ((mem_sortUniq _ l).mp hl)
    exact ⟨p, hp, he.symm⟩
  have hparse : ∀ l ∈ sortUniq (pairs.map pairLine),
      ∃ q : String × String, parsePairLine l = .ok q := by
    intro l hl
    obtain ⟨p, hp, he⟩ := hmemlines l hl
    exact ⟨p, by rw [he]; exact parsePairLine_pairLine p (h p hp).1 (h p hp).2⟩
  have hclean : ∀ l ∈ sortUniq (pairs.map pairLine), '\n' ∉ l ∧ '\r' ∉ l := by
    intro l hl
    obtain ⟨p, hp, he⟩ := hmemlines l hl
    rw [he]
    exact ⟨pairLine_no_nl p (h p hp).1 (h p hp).2, pairLine_no_cr p (h p hp).1 (h p hp).2⟩
  have hreader : readerLines (joinLines (sortUniq (pairs.map pairLine)))
      = sortUniq (pairs.map pairLine) :=
    readerLines_joinLines (sortUniq (pairs.map pairLine)) hclean
  obtain ⟨res, hres, hmem, hnodup⟩ := collectPairs_strong (sortUniq (pairs.map pairLine)) hparse
  refine ⟨res, ?_, ?_, ?_⟩
  · unfold dedupFinalize
    rw [hlines, hreader]
    exact hres
  · refine hnodup (sortUniq_nodup _) ?_
    intro l1 hl1 l2 hl2 q hq1 hq2
    obtain ⟨p1, hp1, he1⟩ := hmemlines l1 hl1
    obtain ⟨p2, hp2, he2⟩ := hmemlines l2 hl2
    have e1 : parsePairLine l1 = .ok p1 := by
      rw [he1]; exact parsePairLine_pairLine p1 (h p1 hp1).1 (h p1 hp1).2
    have e2 : parsePairLine l2 = .ok p2 := by
      rw [he2]; exact parsePairLine_pairLine p2 (h p2 hp2).1 (h p2 hp2).2
    have hq1' : p1 = q := LineParse.ok.inj (e1.symm.trans hq1)
    have hq2' : p2 = q := LineParse.ok.inj (e2.symm.trans hq2)
    rw [he1, he2, hq1', hq2']
  · intro q
    rw [hmem q]
    constructor
    · rintro ⟨l, hl, hpl⟩
      obtain ⟨p, hp, he⟩ := hmemlines l hl
      have ep : parsePairLine l = .ok p := by
        rw [he]; exact parsePairLine_pairLine p (h p hp).1 (h p hp).2
      have hpq : p = q := LineParse.ok.inj (ep.symm.trans hpl)
      exact hpq ▸ hp
    · intro hq
      refine ⟨pairLine q, ?_, parsePairLine_pairLine q (h q hq).1 (h q hq).2⟩
      exact (mem_sortUniq _ _).mpr (List.mem_map.mpr ⟨q, hq, rfl⟩)

/-- Witness for the C3 amended theorem: duplicate inserts of
`("en", "Alice")` plus one `("de", "Bob")`. -/
theorem claim_C3_witness :
    (∀ p ∈ [("en", "Alice"), ("en", "Alice"), ("de", "Bob")],
        siteOk p.1 = true ∧ editorOk p.2 = true) ∧
    ∃ res : List (String × String),
      dedupFinalize [("en", "Alice"), ("en", "Alice"), ("de", "Bob")] = .ok res ∧ res.Nodup ∧
        ∀ q, q ∈ res ↔ q ∈ [("en", "Alice"), ("en", "Alice"), ("de", "Bob")] :=
  ⟨by decide, claim_C3 [("en", "Alice"), ("en", "Alice"), ("de", "Bob")] (by decide)⟩

/-- C10 counterexample: the pair `(" a", "b")` satisfies the claim's
conditions — no comma and no newline in the site, no newline in the
editor — yet the reader's `strip()` removes the site's leading space,
so parsing the serialized line returns `("a", "b")`, not the original
pair. -/
theorem claim_C10_counterexample :
    (',' ∉ (" a" : String).toList ∧ '\n' ∉ (" a" : String).toList ∧
      '\n' ∉ ("b" : String).toList) ∧
    parsePairLine (pairLine (" a", "b")) = .ok ("a", "b") ∧
    (("a", "b") : String × String) ≠ (" a", "b") := by
  refine ⟨by decide, rfl, by decide⟩

/-- C10 amended: for a site with no comma, no newline, no carriage
return and no leading whitespace (in Python's Unicode whitespace
class), and an editor with no newline, no carriage return and no
trailing whitespace (commas allowed), writing the `site,editor` line
and parsing it back by strip-and-split-at-first-comma recovers exactly
the original pair; the single written line is also exactly what the
host line-splitting hands to `sort | uniq`, and exactly the one line
the universal-newlines text-mode reader sees. -/
theorem claim_C10 (s e : String) (h1 : siteOk s = true) (h2 : editorOk e = true) :
    parsePairLine (pairLine (s, e)) = .ok (s, e) ∧
    hostLines (writerFile [(s, e)]) = [pairLine (s, e)] ∧
    readerLines (joinLines [pairLine (s, e)]) = [pairLine (s, e)] := by
  refine ⟨parsePairLine_pairLine (s, e) h1 h2, ?_, ?_⟩
  · have hnl : ∀ p ∈ [(s, e)], '\n' ∉ pairLine p := by
      intro p hp
      have hpe : p = (s, e) := by simpa using hp
      rw [hpe]
      exact pairLine_no_nl (s, e) h1 h2
    simpa using hostLines_writerFile [(s, e)] hnl
  · refine readerLines_joinLines [pairLine (s, e)] ?_
    intro l hl
    have hle : l = pairLine (s, e) := by simpa using hl
    rw [hle]
    exact ⟨pairLine_no_nl (s, e) h1 h2, pairLine_no_cr (s, e) h1 h2⟩

/-- Witness for the C10 amended theorem: an editor name containing a
comma round-trips. -/
theorem claim_C10_witness :
    siteOk "en" = true ∧ editorOk "Doe, Jane" = true ∧
    (parsePairLine (pairLine ("en", "Doe, Jane")) = .ok ("en", "Doe, Jane") ∧
      hostLines (writerFile [("en", "Doe, Jane")]) = [pairLine ("en", "Doe, Jane")] ∧
      readerLines (joinLines [pairLine ("en", "Doe, Jane")]) = [pairLine ("en", "Doe, Jane")]) :=
  ⟨by decide, by decide, claim_C10 "en" "Doe, Jane" (by decide) (by decide)⟩

/-- Fidelity of the dedup model at the interior-carriage-return gap: an
editor such as `"a\rb"` is excluded by the amended side conditions, and
finalization on it reproduces the program's crash — the text-mode
reader splits `en,a\rb` at the lone `'\r'` into `en,a` and `b`, and the
comma-less line `b` raises the uncaught `ValueError` (`.error ()`). -/
theorem dedupFinalize_interior_cr :
    editorOk "a\rb" = false ∧ dedupFinalize [("en", "a\rb")] = .error () :=
  ⟨rfl, rfl⟩

/-- Fidelity of the strip model at the non-ASCII-whitespace gap:
`str.strip()` removes Unicode whitespace such as U+0085 (NEL) and
U+00A0 (NBSP), so editors ending in them are excluded by the amended
side conditions, and the modelled reader indeed strips them. -/
theorem parsePairLine_strips_unicode_ws :
    editorOk "a\u0085" = false ∧ editorOk "a\u00A0" = false ∧
    parsePairLine (pairLine ("en", "a\u0085")) = .ok ("en", "a") ∧
    parsePairLine (pairLine ("en", "a\u00A0")) = .ok ("en", "a") :=
  ⟨rfl, rfl, rfl, rfl⟩
